import Mathlib

/-!
Verification of the rust-lingo terminal word-guessing game (`src/main.rs`).

A Rust `&str` holding a word is modelled by its list of `Char`s; the
dictionary-loading stage, which works on whole lines, is modelled on `String`.
`Option` models panicking Rust code (`unwrap`): `none` is a panic.
-/

namespace Lingo

/-- Constant `WORD_LENGTH` from `main.rs` line 6. -/
def WORD_LENGTH : Nat := 5

/-- Constant `GUESSES` from `main.rs` line 7. -/
def GUESSES : Nat := 5

/-- The `GuessedLetter` enum from `main.rs` lines 13-24. -/
inductive GuessedLetter where
  | NoLetter
  | Letter (c : Char)
  | Wrong (c : Char)
  | WrongPlace (c : Char)
  | Correct (c : Char)
deriving DecidableEq, Repr

/-- The per-character scoring decision of `main.rs` lines 182-188: `t` is
`word.chars().nth(index).unwrap()` and `c` is the guessed character `chr`. -/
def classify (target : List Char) (t c : Char) : GuessedLetter :=
  if t = c then GuessedLetter.Correct c
  else if c ∈ target then GuessedLetter.WrongPlace c
  else GuessedLetter.Wrong c

/-- The scoring loop of `main.rs` lines 181-191: `guess.chars().enumerate()`
starting at index `i`, with `none` modelling the panic of
`word.chars().nth(index).unwrap()` when the index is out of range. -/
def scoreFrom (target : List Char) : Nat → List Char → Option (List GuessedLetter)
  | _, [] => some []
  | i, c :: rest =>
    match target[i]? with
    | none => none
    | some t => (scoreFrom target (i + 1) rest).map (fun res => classify target t c :: res)

/-- Scoring a full candidate against the target (`main.rs` lines 181-191). -/
def scoreGuess (guess target : List Char) : Option (List GuessedLetter) :=
  scoreFrom target 0 guess

theorem getD_of_lt {α : Type} (l : List α) (i : Nat) (d : α) (h : i < l.length) :
    l[i]? = some (l.getD i d) := by
  rw [List.getD_eq_getElem?_getD, List.getElem?_eq_getElem h]
  rfl

theorem scoreFrom_eq_some (target : List Char) :
    ∀ (guess : List Char) (i : Nat), i + guess.length ≤ target.length →
    ∃ res, scoreFrom target i guess = some res ∧ res.length = guess.length ∧
      ∀ j, j < guess.length →
        res.getD j GuessedLetter.NoLetter =
          classify target (target.getD (i + j) ' ') (guess.getD j ' ') := by
  intro guess
  induction guess with
  | nil =>
    intro i _
    exact ⟨[], rfl, rfl, by intro j hj; simp at hj⟩
  | cons c rest ih =>
    intro i hi
    have hlen : i < target.length := by simp at hi; omega
    obtain ⟨res', hres', hlen', hget'⟩ := ih (i + 1) (by simp at hi ⊢; omega)
    refine ⟨classify target (target.getD i ' ') c :: res', ?_, by simp [hlen'], ?_⟩
    · simp only [scoreFrom, getD_of_lt target i ' ' hlen, hres']
      rfl
    · intro j hj
      cases j with
      | zero => simp
      | succ j' =>
        have hj' : j' < rest.length := by simpa using hj
        have := hget' j' hj'
        simpa [Nat.add_assoc, Nat.add_comm 1 j'] using this

/-- Claim C1: for candidate and target of length `WORD_LENGTH` over lowercase
letters, scoring succeeds and yields, at each index `i`: `Correct` when
`candidate[i] = target[i]`, else `WrongPlace` when the target contains
`candidate[i]` anywhere, else `Wrong`. -/
theorem score_guess_spec (guess target : List Char)
    (hg : guess.length = WORD_LENGTH) (ht : target.length = WORD_LENGTH)
    (hgl : ∀ c ∈ guess, 'a' ≤ c ∧ c ≤ 'z') (htl : ∀ c ∈ target, 'a' ≤ c ∧ c ≤ 'z') :
    ∃ res, scoreGuess guess target = some res ∧ res.length = WORD_LENGTH ∧
      ∀ i, i < WORD_LENGTH →
        res.getD i GuessedLetter.NoLetter =
          if guess.getD i ' ' = target.getD i ' ' then
            GuessedLetter.Correct (guess.getD i ' ')
          else if guess.getD i ' ' ∈ target then
            GuessedLetter.WrongPlace (guess.getD i ' ')
          else GuessedLetter.Wrong (guess.getD i ' ') := by
  obtain ⟨res, hres, hlen, hget⟩ :=
    scoreFrom_eq_some target guess 0 (by omega)
  refine ⟨res, hres, by omega, ?_⟩
  intro i hi
  have hcell := hget i (by omega)
  rw [Nat.zero_add] at hcell
  rw [hcell]
  unfold classify
  by_cases h1 : guess.getD i ' ' = target.getD i ' '
  · rw [if_pos h1.symm, if_pos h1]
  · rw [if_neg (fun h => h1 h.symm), if_neg h1]

/-- Claim C1 witness: scoring "beach" against "apple". -/
theorem score_guess_spec_witness :
    ∃ res, scoreGuess ['b', 'e', 'a', 'c', 'h'] ['a', 'p', 'p', 'l', 'e'] = some res ∧
      res.length = WORD_LENGTH ∧
      ∀ i, i < WORD_LENGTH →
        res.getD i GuessedLetter.NoLetter =
          if ['b', 'e', 'a', 'c', 'h'].getD i ' ' = ['a', 'p', 'p', 'l', 'e'].getD i ' ' then
            GuessedLetter.Correct (['b', 'e', 'a', 'c', 'h'].getD i ' ')
          else if ['b', 'e', 'a', 'c', 'h'].getD i ' ' ∈ ['a', 'p', 'p', 'l', 'e'] then
            GuessedLetter.WrongPlace (['b', 'e', 'a', 'c', 'h'].getD i ' ')
          else GuessedLetter.Wrong (['b', 'e', 'a', 'c', 'h'].getD i ' ') :=
  score_guess_spec ['b', 'e', 'a', 'c', 'h'] ['a', 'p', 'p', 'l', 'e']
    (by decide) (by decide) (by decide) (by decide)

/-- Claim C8: scoring a word against itself yields `Correct` at every index. -/
theorem score_self_all_correct (W : List Char) (hW : W.length = WORD_LENGTH)
    (hWl : ∀ c ∈ W, 'a' ≤ c ∧ c ≤ 'z') :
    ∃ res, scoreGuess W W = some res ∧ res.length = WORD_LENGTH ∧
      ∀ i, i < WORD_LENGTH →
        res.getD i GuessedLetter.NoLetter = GuessedLetter.Correct (W.getD i ' ') := by
  obtain ⟨res, hres, hlen, hget⟩ := scoreFrom_eq_some W W 0 (by omega)
  refine ⟨res, hres, by omega, ?_⟩
  intro i hi
  have := hget i (by omega)
  rw [this]
  simp [classify]

/-- Claim C8 witness: scoring "apple" against itself. -/
theorem score_self_all_correct_witness :
    ∃ res, scoreGuess ['a', 'p', 'p', 'l', 'e'] ['a', 'p', 'p', 'l', 'e'] = some res ∧
      res.length = WORD_LENGTH ∧
      ∀ i, i < WORD_LENGTH →
        res.getD i GuessedLetter.NoLetter =
          GuessedLetter.Correct (['a', 'p', 'p', 'l', 'e'].getD i ' ') :=
  score_self_all_correct ['a', 'p', 'p', 'l', 'e'] (by decide) (by decide)

/-- Claim C2 counterexample: for candidate "zzzzz" and target "apple" the letter
'z' occurs more often in the candidate (5 times) than in the target (0 times),
and index 0 is a wrong-position occurrence of 'z', yet scoring marks it `Wrong`
(absent), not `WrongPlace` (misplaced), refuting the claim as stated. -/
theorem scoring_surplus_counterexample :
    (['a', 'p', 'p', 'l', 'e'].count 'z' < ['z', 'z', 'z', 'z', 'z'].count 'z') ∧
    ['z', 'z', 'z', 'z', 'z'].getD 0 ' ' ≠ ['a', 'p', 'p', 'l', 'e'].getD 0 ' ' ∧
    scoreGuess ['z', 'z', 'z', 'z', 'z'] ['a', 'p', 'p', 'l', 'e'] =
      some [GuessedLetter.Wrong 'z', GuessedLetter.Wrong 'z', GuessedLetter.Wrong 'z',
        GuessedLetter.Wrong 'z', GuessedLetter.Wrong 'z'] ∧
    ((scoreGuess ['z', 'z', 'z', 'z', 'z'] ['a', 'p', 'p', 'l', 'e']).getD []).getD 0
        GuessedLetter.NoLetter ≠ GuessedLetter.WrongPlace 'z' := by
  decide

/-- Claim C2 amended: if a letter occurs more times in the candidate than in the
target AND occurs at least once in the target, then every wrong-position
occurrence of that letter is marked `WrongPlace`; no surplus occurrence is
downgraded to `Wrong`. -/
theorem scoring_surplus_amended (cand target : List Char) (c : Char) (i : Nat)
    (hcl : cand.length = WORD_LENGTH) (htl : target.length = WORD_LENGTH)
    (hcount : target.count c < cand.count c) (hmem : c ∈ target)
    (hi : i < WORD_LENGTH) (hci : cand.getD i ' ' = c) (hne : target.getD i ' ' ≠ c) :
    ∃ res, scoreGuess cand target = some res ∧
      res.getD i GuessedLetter.NoLetter = GuessedLetter.WrongPlace c := by
  obtain ⟨res, hres, hlen, hget⟩ := scoreFrom_eq_some target cand 0 (by omega)
  refine ⟨res, hres, ?_⟩
  have hcell := hget i (by omega)
  rw [Nat.zero_add] at hcell
  rw [hcell, hci]
  unfold classify
  rw [if_neg hne, if_pos hmem]

/-- Claim C2 amended witness: target "lever", candidate "eerie", letter 'e' at
index 0. -/
theorem scoring_surplus_amended_witness :
    ∃ res, scoreGuess ['e', 'e', 'r', 'i', 'e'] ['l', 'e', 'v', 'e', 'r'] = some res ∧
      res.getD 0 GuessedLetter.NoLetter = GuessedLetter.WrongPlace 'e' :=
  scoring_surplus_amended ['e', 'e', 'r', 'i', 'e'] ['l', 'e', 'v', 'e', 'r'] 'e' 0
    (by decide) (by decide) (by decide) (by decide) (by decide) (by decide) (by decide)

/-- Game status after committing a guess: the loop at `main.rs` lines 118-205
either keeps looping, or breaks with a win (line 199) or a loss (line 203). -/
inductive GStatus where
  | InProgress
  | Won
  | Lost
deriving DecidableEq, Repr

/-- The mutable state of `play_game`: the `BoardState` struct (`main.rs`
lines 34-39, without the `possible_words` rendering hint, treated separately)
together with the `guess_num` counter (line 115). -/
structure GState where
  board : List (List GuessedLetter)
  message : Option (List Char)
  guessNum : Nat
deriving DecidableEq, Repr

/-- The all-`NoLetter` board of `BoardState::default()` (`main.rs` line 114). -/
def initBoard : List (List GuessedLetter) :=
  List.replicate GUESSES (List.replicate WORD_LENGTH GuessedLetter.NoLetter)

/-- The state at the start of `play_game`s guessing loop (`main.rs`
lines 114-115). -/
def initState : GState :=
  { board := initBoard, message := none, guessNum := 0 }

/-- ASCII lowercasing of one character, as in Rust `to_ascii_lowercase`. -/
def asciiLower (c : Char) : Char :=
  if 'A' ≤ c ∧ c ≤ 'Z' then Char.ofNat (c.toNat + 32) else c

/-- Rust `str::eq_ignore_ascii_case` (`main.rs` line 196). -/
def eqIgnoreAsciiCase (a b : List Char) : Bool :=
  a.map asciiLower == b.map asciiLower

/-- The message of `main.rs` line 177. -/
def notInDictMsg (guess : List Char) : List Char :=
  "The word ".toList ++ guess ++ " is not in the dictionary".toList

/-- The message of `main.rs` line 198. -/
def winMsg : List Char :=
  "You win! Press any key to quit".toList

/-- The message of `main.rs` line 202. -/
def lostMsg (target : List Char) : List Char :=
  "The word was ".toList ++ target ++ "! Press any key to quit.".toList

/-- Committing one submitted guess: `main.rs` lines 174-204. Checks dictionary
membership (line 175; on failure sets the message and leaves the state
otherwise untouched), scores the guess into the current row and increments
`guess_num` (lines 181-192), then checks the win condition (line 196) before
the guesses-exhausted condition (line 200). `none` models a scoring panic. -/
def processGuess (words : List (List Char)) (target : List Char) (s : GState)
    (guess : List Char) : Option (GState × GStatus) :=
  if guess ∈ words then
    match scoreGuess guess target with
    | none => none
    | some row =>
      let s' : GState :=
        { board := s.board.set s.guessNum row, message := s.message,
          guessNum := s.guessNum + 1 }
      if eqIgnoreAsciiCase target guess then
        some ({ s' with message := some winMsg }, GStatus.Won)
      else if s'.guessNum = GUESSES then
        some ({ s' with message := some (lostMsg target) }, GStatus.Lost)
      else
        some (s', GStatus.InProgress)
  else
    some ({ s with message := some (notInDictMsg guess) }, GStatus.InProgress)

/-- The outer guessing loop of `main.rs` lines 118-205, fed a list of submitted
guesses: an `InProgress` round continues with the next guess, a `Won` or `Lost`
round breaks out of the loop. -/
def runGuesses (words : List (List Char)) (target : List Char) :
    GState → List (List Char) → Option (GState × GStatus)
  | s, [] => some (s, GStatus.InProgress)
  | s, g :: gs =>
    match processGuess words target s g with
    | none => none
    | some (s', GStatus.InProgress) => runGuesses words target s' gs
    | some (s', st) => some (s', st)

theorem eqIgnoreAsciiCase_length {a b : List Char}
    (h : eqIgnoreAsciiCase a b = true) : a.length = b.length := by
  unfold eqIgnoreAsciiCase at h
  have h' : a.map asciiLower = b.map asciiLower := by
    exact beq_iff_eq.mp h
  have := congrArg List.length h'
  simpa using this

/-- Claim C3: committing a dictionary guess that equals the target
(case-insensitively) yields `Won`, whatever the attempt counter is — the win
check precedes the attempts-exhausted check, so even a winning final guess
never yields `Lost`. -/
theorem commit_win_priority (words : List (List Char)) (target : List Char)
    (s : GState) (guess : List Char)
    (hmem : guess ∈ words) (heq : eqIgnoreAsciiCase target guess = true) :
    ∃ s', processGuess words target s guess = some (s', GStatus.Won) ∧
      s'.message = some winMsg := by
  have hlen : guess.length ≤ target.length :=
    Nat.le_of_eq (eqIgnoreAsciiCase_length heq).symm
  obtain ⟨row, hrow, _, _⟩ := scoreFrom_eq_some target guess 0 (by omega)
  have hrow' : scoreGuess guess target = some row := hrow
  refine ⟨⟨s.board.set s.guessNum row, some winMsg, s.guessNum + 1⟩, ?_, rfl⟩
  unfold processGuess
  rw [if_pos hmem, hrow']
  simp [heq]

/-- Claim C3 witness: guessing "apple" with target "apple" on the final
attempt (`guessNum = 4`). -/
theorem commit_win_priority_witness :
    ∃ s', processGuess [['a', 'p', 'p', 'l', 'e']] ['a', 'p', 'p', 'l', 'e']
        { board := initBoard, message := none, guessNum := 4 }
        ['a', 'p', 'p', 'l', 'e'] = some (s', GStatus.Won) ∧
      s'.message = some winMsg :=
  commit_win_priority [['a', 'p', 'p', 'l', 'e']] ['a', 'p', 'p', 'l', 'e']
    { board := initBoard, message := none, guessNum := 4 }
    ['a', 'p', 'p', 'l', 'e'] (by decide) (by decide)

/-- Claim C5: a submitted full-length candidate absent from the dictionary is
rejected recoverably: the not-in-dictionary message is set, `guessNum` is
unchanged, the board is unchanged (no scored row is committed), and the game
stays `InProgress` on the same row. -/
theorem reject_not_in_dictionary (words : List (List Char)) (target : List Char)
    (s : GState) (guess : List Char) (hmem : guess ∉ words) :
    ∃ s', processGuess words target s guess = some (s', GStatus.InProgress) ∧
      s'.message = some (notInDictMsg guess) ∧
      s'.guessNum = s.guessNum ∧
      s'.board = s.board := by
  refine ⟨⟨s.board, some (notInDictMsg guess), s.guessNum⟩, ?_, rfl, rfl, rfl⟩
  unfold processGuess
  rw [if_neg hmem]

/-- Claim C5 witness: submitting "zzzzz" against a dictionary holding only
"apple". -/
theorem reject_not_in_dictionary_witness :
    ∃ s', processGuess [['a', 'p', 'p', 'l', 'e']] ['a', 'p', 'p', 'l', 'e']
        initState ['z', 'z', 'z', 'z', 'z'] = some (s', GStatus.InProgress) ∧
      s'.message = some (notInDictMsg ['z', 'z', 'z', 'z', 'z']) ∧
      s'.guessNum = initState.guessNum ∧
      s'.board = initState.board :=
  reject_not_in_dictionary [['a', 'p', 'p', 'l', 'e']] ['a', 'p', 'p', 'l', 'e']
    initState ['z', 'z', 'z', 'z', 'z'] (by decide)

theorem processGuess_commit_nonwin (words : List (List Char)) (target : List Char)
    (s : GState) (guess : List Char) (row : List GuessedLetter)
    (hmem : guess ∈ words) (hrow : scoreGuess guess target = some row)
    (hnw : eqIgnoreAsciiCase target guess = false) :
    processGuess words target s guess =
      if s.guessNum + 1 = GUESSES then
        some (⟨s.board.set s.guessNum row, some (lostMsg target), s.guessNum + 1⟩,
          GStatus.Lost)
      else
        some (⟨s.board.set s.guessNum row, s.message, s.guessNum + 1⟩,
          GStatus.InProgress) := by
  unfold processGuess
  rw [if_pos hmem, hrow]
  simp [hnw]

theorem run_nonwinning_aux (words : List (List Char)) (target : List Char)
    (htl : target.length = WORD_LENGTH) :
    ∀ (gs : List (List Char)) (s : GState), gs ≠ [] →
    s.guessNum + gs.length = GUESSES →
    (∀ g ∈ gs, g ∈ words) → (∀ g ∈ gs, g.length = WORD_LENGTH) →
    (∀ g ∈ gs, eqIgnoreAsciiCase target g = false) →
    ∃ s', runGuesses words target s gs = some (s', GStatus.Lost) ∧
      s'.message = some (lostMsg target) := by
  intro gs
  induction gs with
  | nil => intro s hne; exact absurd rfl hne
  | cons g gs' ih =>
    intro s _ hnum hmem hlen hnw
    have hg : g ∈ words := hmem g (List.mem_cons_self g gs')
    have hgl : g.length = WORD_LENGTH := hlen g (List.mem_cons_self g gs')
    obtain ⟨row, hrow, _, _⟩ := scoreFrom_eq_some target g 0 (by omega)
    have hrow' : scoreGuess g target = some row := hrow
    have hnwg : eqIgnoreAsciiCase target g = false := hnw g (List.mem_cons_self g gs')
    have hstep := processGuess_commit_nonwin words target s g row hg hrow' hnwg
    cases gs' with
    | nil =>
      have h5 : s.guessNum + 1 = GUESSES := by simp at hnum; omega
      rw [if_pos h5] at hstep
      refine ⟨⟨s.board.set s.guessNum row, some (lostMsg target), s.guessNum + 1⟩, ?_, rfl⟩
      unfold runGuesses
      rw [hstep]
    | cons g2 gs'' =>
      have h5 : ¬ s.guessNum + 1 = GUESSES := by simp at hnum; omega
      rw [if_neg h5] at hstep
      obtain ⟨s', hs', hmsg⟩ := ih ⟨s.board.set s.guessNum row, s.message, s.guessNum + 1⟩
        (by simp)
        (by simp at hnum ⊢; omega)
        (fun g' hg' => hmem g' (List.mem_cons_of_mem _ hg'))
        (fun g' hg' => hlen g' (List.mem_cons_of_mem _ hg'))
        (fun g' hg' => hnw g' (List.mem_cons_of_mem _ hg'))
      refine ⟨s', ?_, hmsg⟩
      unfold runGuesses
      rw [hstep]
      exact hs'

/-- Claim C4: starting from the initial state, committing exactly `GUESSES`
in-dictionary guesses, none of which equals the target, ends the game `Lost`
with a final message that contains the target word. -/
theorem run_all_nonwinning_lost (words : List (List Char)) (target : List Char)
    (gs : List (List Char)) (htl : target.length = WORD_LENGTH)
    (hcount : gs.length = GUESSES)
    (hmem : ∀ g ∈ gs, g ∈ words) (hlen : ∀ g ∈ gs, g.length = WORD_LENGTH)
    (hnw : ∀ g ∈ gs, eqIgnoreAsciiCase target g = false) :
    ∃ s', runGuesses words target initState gs = some (s', GStatus.Lost) ∧
      s'.message = some (lostMsg target) ∧
      ∃ pre post, s'.message = some (pre ++ target ++ post) := by
  obtain ⟨s', h1, h2⟩ := run_nonwinning_aux words target htl gs initState
    (by intro h; rw [h] at hcount; simp [GUESSES] at hcount)
    (by simp [initState, hcount])
    hmem hlen hnw
  refine ⟨s', h1, h2, "The word was ".toList, "! Press any key to quit.".toList, ?_⟩
  rw [h2]
  rfl

/-- Claim C4 witness: target "apple", five committed "beach" guesses. -/
theorem run_all_nonwinning_lost_witness :
    ∃ s', runGuesses [['a', 'p', 'p', 'l', 'e'], ['b', 'e', 'a', 'c', 'h']]
        ['a', 'p', 'p', 'l', 'e'] initState
        [['b', 'e', 'a', 'c', 'h'], ['b', 'e', 'a', 'c', 'h'], ['b', 'e', 'a', 'c', 'h'],
          ['b', 'e', 'a', 'c', 'h'], ['b', 'e', 'a', 'c', 'h']] =
        some (s', GStatus.Lost) ∧
      s'.message = some (lostMsg ['a', 'p', 'p', 'l', 'e']) ∧
      ∃ pre post, s'.message = some (pre ++ ['a', 'p', 'p', 'l', 'e'] ++ post) :=
  run_all_nonwinning_lost [['a', 'p', 'p', 'l', 'e'], ['b', 'e', 'a', 'c', 'h']]
    ['a', 'p', 'p', 'l', 'e']
    [['b', 'e', 'a', 'c', 'h'], ['b', 'e', 'a', 'c', 'h'], ['b', 'e', 'a', 'c', 'h'],
      ['b', 'e', 'a', 'c', 'h'], ['b', 'e', 'a', 'c', 'h']]
    (by decide) (by decide) (by decide) (by decide) (by decide)

/-- ncurses keycode `KEY_ENTER` checked at `main.rs` line 149. -/
def KEY_ENTER : Int := 343

/-- ncurses keycode `KEY_BACKSPACE` checked at `main.rs` line 155. -/
def KEY_BACKSPACE : Int := 263

/-- ncurses keycode `KEY_DC` checked at `main.rs` line 155. -/
def KEY_DC : Int := 330

/-- Outcome of one iteration of the character-input loop: escape returns from
`play_game`, enter with a full guess breaks to submission, anything else
continues the loop with the (possibly updated) guess. -/
inductive KeyOutcome where
  | Abort
  | Submit (guess : List Char)
  | Continue (guess : List Char)
deriving DecidableEq, Repr

/-- One iteration of the input handling at `main.rs` lines 146-166: escape
(27) aborts; enter (`KEY_ENTER` or `'\n'` = 10) submits only when the guess has
exactly `WORD_LENGTH` characters; backspace/delete (`KEY_BACKSPACE`, `KEY_DC`,
127) removes the last character when there is one; a keycode in `'a'..='z'`
(97-122) appends its character only when the guess is still short; any other
keycode is ignored. -/
def keyStep (guess : List Char) (input : Int) : KeyOutcome :=
  if input = 27 then KeyOutcome.Abort
  else if input = KEY_ENTER ∨ input = 10 then
    if guess.length = WORD_LENGTH then KeyOutcome.Submit guess
    else KeyOutcome.Continue guess
  else if input = KEY_BACKSPACE ∨ input = KEY_DC ∨ input = 127 then
    if guess.isEmpty then KeyOutcome.Continue guess
    else KeyOutcome.Continue guess.dropLast
  else if 97 ≤ input ∧ input ≤ 122 then
    if guess.length < WORD_LENGTH then
      KeyOutcome.Continue (guess ++ [Char.ofNat input.toNat])
    else KeyOutcome.Continue guess
  else KeyOutcome.Continue guess

/-- Running the input loop over a list of keycodes, starting from a current
guess. `some g` means the loop broke to submission with guess `g`; `none`
means it aborted or the keycode list ran out first. -/
def runKeys : List Char → List Int → Option (List Char)
  | _, [] => none
  | g, k :: ks =>
    match keyStep g k with
    | KeyOutcome.Abort => none
    | KeyOutcome.Submit g' => some g'
    | KeyOutcome.Continue g' => runKeys g' ks

theorem ofNat_letter_bounds (n : Nat) (h1 : 97 ≤ n) (h2 : n ≤ 122) :
    'a' ≤ Char.ofNat n ∧ Char.ofNat n ≤ 'z' := by
  interval_cases n <;> decide

theorem keyStep_continue_wf (g : List Char) (k : Int) (g' : List Char)
    (hlen : g.length ≤ WORD_LENGTH) (hchars : ∀ c ∈ g, 'a' ≤ c ∧ c ≤ 'z')
    (h : keyStep g k = KeyOutcome.Continue g') :
    g'.length ≤ WORD_LENGTH ∧ ∀ c ∈ g', 'a' ≤ c ∧ c ≤ 'z' := by
  unfold keyStep at h
  split_ifs at h <;> cases h <;>
    first
      | exact ⟨hlen, hchars⟩
      | exact ⟨le_trans (List.Sublist.length_le (List.dropLast_sublist g)) hlen,
          fun c hc => hchars c (List.Sublist.mem hc (List.dropLast_sublist g))⟩
      | (constructor
         · simp only [List.length_append, List.length_singleton]
           omega
         · intro c hc
           rcases List.mem_append.mp hc with hc' | hc'
           · exact hchars c hc'
           · rcases List.mem_singleton.mp hc' with rfl
             exact ofNat_letter_bounds k.toNat (by omega) (by omega))

theorem keyStep_submit_eq (g : List Char) (k : Int) (g' : List Char)
    (h : keyStep g k = KeyOutcome.Submit g') :
    g' = g ∧ g.length = WORD_LENGTH := by
  unfold keyStep at h
  split_ifs at h <;> cases h <;> exact ⟨rfl, by assumption⟩

/-- Claim C7: starting from any well-formed current guess (at most
`WORD_LENGTH` characters, all in `'a'..='z'`) — in particular the empty guess
each round starts with — whenever the input loop breaks to submission, the
submitted guess has exactly `WORD_LENGTH` characters, all in `'a'..='z'`:
the assertion at `main.rs` line 172 holds and scoring never sees a malformed
candidate. -/
theorem submitted_guess_wellformed (keys : List Int) (g0 : List Char)
    (hlen : g0.length ≤ WORD_LENGTH) (hchars : ∀ c ∈ g0, 'a' ≤ c ∧ c ≤ 'z')
    (g : List Char) (hrun : runKeys g0 keys = some g) :
    g.length = WORD_LENGTH ∧ ∀ c ∈ g, 'a' ≤ c ∧ c ≤ 'z' := by
  induction keys generalizing g0 with
  | nil => simp [runKeys] at hrun
  | cons k ks ih =>
    unfold runKeys at hrun
    cases hstep : keyStep g0 k with
    | Abort => rw [hstep] at hrun; cases hrun
    | Submit g' =>
      rw [hstep] at hrun
      have hg : g' = g := by cases hrun; rfl
      obtain ⟨hg0, hfull⟩ := keyStep_submit_eq g0 k g' hstep
      subst hg
      subst hg0
      exact ⟨hfull, hchars⟩
    | Continue g' =>
      rw [hstep] at hrun
      obtain ⟨hlen', hchars'⟩ := keyStep_continue_wf g0 k g' hlen hchars hstep
      exact ih g' hlen' hchars' hrun

/-- Claim C7 witness: typing "apple" then enter, starting from the empty
guess. -/
theorem submitted_guess_wellformed_witness :
    ['a', 'p', 'p', 'l', 'e'].length = WORD_LENGTH ∧
      ∀ c ∈ ['a', 'p', 'p', 'l', 'e'], 'a' ≤ c ∧ c ≤ 'z' :=
  submitted_guess_wellformed [97, 112, 112, 108, 101, 10] [] (by decide) (by decide)
    ['a', 'p', 'p', 'l', 'e'] (by decide)

/-- The live-preview row written by `main.rs` lines 124-129: cell `i` holds
`Letter` with the typed character when `i` is below the partial guess's
length, and `NoLetter` otherwise. -/
def livePreviewRow (guess : List Char) : List GuessedLetter :=
  (List.range WORD_LENGTH).map fun i =>
    match guess[i]? with
    | none => GuessedLetter.NoLetter
    | some x => GuessedLetter.Letter x

/-- Writing the live preview of the partly typed guess into row `guessNum` of
the board (`main.rs` lines 124-129). -/
def writePreview (board : List (List GuessedLetter)) (guessNum : Nat)
    (guess : List Char) : List (List GuessedLetter) :=
  board.set guessNum (livePreviewRow guess)

/-- Claim C9: the live preview sets each of the first `len guess` cells of the
current row to `Letter` with the typed character, each remaining cell to
`NoLetter`, and leaves every other board row (in particular every committed
row) unchanged. -/
theorem live_preview_spec (board : List (List GuessedLetter)) (guessNum : Nat)
    (guess : List Char) (hg : guessNum < board.length) :
    (∀ i, i < guess.length → i < WORD_LENGTH →
      ((writePreview board guessNum guess).getD guessNum []).getD i GuessedLetter.NoLetter =
        GuessedLetter.Letter (guess.getD i ' ')) ∧
    (∀ i, guess.length ≤ i → i < WORD_LENGTH →
      ((writePreview board guessNum guess).getD guessNum []).getD i GuessedLetter.NoLetter =
        GuessedLetter.NoLetter) ∧
    (∀ j, j ≠ guessNum →
      (writePreview board guessNum guess).getD j [] = board.getD j []) := by
  have hrow : (writePreview board guessNum guess).getD guessNum [] = livePreviewRow guess := by
    unfold writePreview
    rw [List.getD_eq_getElem?_getD, List.getElem?_set_self (by omega)]
    rfl
  have hcell : ∀ i, i < WORD_LENGTH →
      (livePreviewRow guess).getD i GuessedLetter.NoLetter =
        match guess[i]? with
        | none => GuessedLetter.NoLetter
        | some x => GuessedLetter.Letter x := by
    intro i hi
    unfold livePreviewRow
    rw [List.getD_eq_getElem?_getD, List.getElem?_map, List.getElem?_range hi]
    rfl
  refine ⟨?_, ?_, ?_⟩
  · intro i hil hiw
    rw [hrow, hcell i hiw, getD_of_lt guess i ' ' hil]
  · intro i hil hiw
    rw [hrow, hcell i hiw, List.getElem?_eq_none hil]
  · intro j hj
    unfold writePreview
    rw [List.getD_eq_getElem?_getD, List.getD_eq_getElem?_getD,
      List.getElem?_set_ne (fun h => hj h.symm)]

/-- Claim C9 witness: the partial guess "ap" previewed on row 1 of the initial
board. -/
theorem live_preview_spec_witness :
    (∀ i, i < ['a', 'p'].length → i < WORD_LENGTH →
      ((writePreview initBoard 1 ['a', 'p']).getD 1 []).getD i GuessedLetter.NoLetter =
        GuessedLetter.Letter (['a', 'p'].getD i ' ')) ∧
    (∀ i, ['a', 'p'].length ≤ i → i < WORD_LENGTH →
      ((writePreview initBoard 1 ['a', 'p']).getD 1 []).getD i GuessedLetter.NoLetter =
        GuessedLetter.NoLetter) ∧
    (∀ j, j ≠ 1 →
      (writePreview initBoard 1 ['a', 'p']).getD j [] = initBoard.getD j []) :=
  live_preview_spec initBoard 1 ['a', 'p'] (by decide)

/-- The `possible_words` hint list recomputed after every keystroke
(`main.rs` lines 131-137): the dictionary entries whose first `len guess`
characters equal the current partial guess, in dictionary order, capped at
`3 + 2 * GUESSES` entries. -/
def possibleWords (words : List (List Char)) (guess : List Char) : List (List Char) :=
  (words.filter fun w => w.take guess.length == guess).take (3 + 2 * GUESSES)

/-- Claim C10: the hint list holds at most `3 + 2 * GUESSES` words, each a
dictionary entry whose first `len guess` characters equal the typed partial
guess, and it is a sublist of the dictionary, hence in the dictionary's
(sorted) order. -/
theorem possible_words_spec (words : List (List Char)) (guess : List Char) :
    (possibleWords words guess).length ≤ 3 + 2 * GUESSES ∧
    (∀ w ∈ possibleWords words guess, w ∈ words ∧ w.take guess.length = guess) ∧
    (possibleWords words guess).Sublist words := by
  refine ⟨List.length_take_le _ _, ?_, ?_⟩
  · intro w hw
    have hw' := List.mem_of_mem_take hw
    have hmem := List.mem_filter.mp hw'
    exact ⟨hmem.1, by simpa using hmem.2⟩
  · exact (List.take_sublist _ _).trans (List.filter_sublist _)

/-- Claim C10 witness: dictionary {"apple", "beach"}, partial guess "a". -/
theorem possible_words_spec_witness :
    (possibleWords [['a', 'p', 'p', 'l', 'e'], ['b', 'e', 'a', 'c', 'h']] ['a']).length ≤
      3 + 2 * GUESSES ∧
    (['a', 'p', 'p', 'l', 'e'] ∈ [['a', 'p', 'p', 'l', 'e'], ['b', 'e', 'a', 'c', 'h']] ∧
      ['a', 'p', 'p', 'l', 'e'].take (['a'] : List Char).length = ['a']) ∧
    (possibleWords [['a', 'p', 'p', 'l', 'e'], ['b', 'e', 'a', 'c', 'h']] ['a']).Sublist
      [['a', 'p', 'p', 'l', 'e'], ['b', 'e', 'a', 'c', 'h']] :=
  ⟨(possible_words_spec [['a', 'p', 'p', 'l', 'e'], ['b', 'e', 'a', 'c', 'h']] ['a']).1,
   (possible_words_spec [['a', 'p', 'p', 'l', 'e'], ['b', 'e', 'a', 'c', 'h']] ['a']).2.1
     ['a', 'p', 'p', 'l', 'e'] (by decide),
   (possible_words_spec [['a', 'p', 'p', 'l', 'e'], ['b', 'e', 'a', 'c', 'h']] ['a']).2.2⟩

/-- The length filter of `main.rs` line 50: Rust `str::len` is the byte
length. -/
def hasWordLength (w : String) : Bool :=
  w.utf8ByteSize == WORD_LENGTH

/-- The alphabet filter of `main.rs` line 53: every character in `'a'..='z'`. -/
def isTypeable (w : String) : Bool :=
  w.toList.all fun c => decide ('a' ≤ c ∧ c ≤ 'z')

/-- The two chained filters of `main.rs` lines 46-54, applied to the input
lines. -/
def filterWords (lines : List String) : List String :=
  (lines.filter hasWordLength).filter isTypeable

/-- The `sort_unstable` call of `main.rs` line 57. -/
def sortWords (ws : List String) : List String :=
  ws.mergeSort fun a b => decide (a ≤ b)

/-- The duplicate check of `main.rs` line 63:
`words.iter().tuple_windows().any(|(a, b)| a == b)`. -/
def hasAdjDup : List String → Bool
  | a :: b :: rest => a == b || hasAdjDup (b :: rest)
  | _ => false

/-- Whether the `panic!` of `main.rs` line 64 fires on the given input
lines. -/
def dictLoadPanics (lines : List String) : Bool :=
  hasAdjDup (sortWords (filterWords lines))

theorem hasAdjDup_iff (l : List String) :
    hasAdjDup l = true ↔ ∃ i a, l[i]? = some a ∧ l[i + 1]? = some a := by
  induction l with
  | nil =>
    constructor
    · intro h; simp [hasAdjDup] at h
    · rintro ⟨i, a, h1, _⟩; simp at h1
  | cons x l ih =>
    cases l with
    | nil =>
      constructor
      · intro h; simp [hasAdjDup] at h
      · rintro ⟨i, a, _, h2⟩
        obtain ⟨hlt, _⟩ := List.getElem?_eq_some.mp h2
        simp at hlt
    | cons y l' =>
      constructor
      · intro h
        have h' : x = y ∨ hasAdjDup (y :: l') = true := by
          have hor : (x == y || hasAdjDup (y :: l')) = true := h
          simpa [beq_iff_eq] using hor
        rcases h' with heq | hrest
        · exact ⟨0, x, rfl, by simp [heq]⟩
        · obtain ⟨i, a, h1, h2⟩ := ih.mp hrest
          exact ⟨i + 1, a, by simpa using h1, by simpa using h2⟩
      · rintro ⟨i, a, h1, h2⟩
        cases i with
        | zero =>
          have hx : x = a := by simpa using h1
          have hy : y = a := by simpa using h2
          show (x == y || hasAdjDup (y :: l')) = true
          rw [hx, hy]
          simp
        | succ i' =>
          show (x == y || hasAdjDup (y :: l')) = true
          have : hasAdjDup (y :: l') = true :=
            ih.mpr ⟨i', a, by simpa using h1, by simpa using h2⟩
          simp [this]

theorem sorted_count_two_adjDup :
    ∀ (l : List String) (w : String), l.Pairwise (fun a b => a ≤ b) →
      2 ≤ l.count w → hasAdjDup l = true := by
  intro l
  induction l with
  | nil => intro w _ hc; simp at hc
  | cons a l ih =>
    intro w hp hc
    cases l with
    | nil =>
      rw [List.count_cons, List.count_nil] at hc
      split at hc <;> omega
    | cons b l' =>
      by_cases hab : a = b
      · show (a == b || hasAdjDup (b :: l')) = true
        simp [hab]
      · show (a == b || hasAdjDup (b :: l')) = true
        by_cases haw : a = w
        · exfalso
          subst haw
          have h1 : (a :: b :: l').count a = (b :: l').count a + 1 := by
            rw [List.count_cons]
            simp
          have hmem : a ∈ b :: l' :=
            List.count_pos_iff.mp (by omega)
          have hal' : a ∈ l' := by
            rcases List.mem_cons.mp hmem with h | h
            · exact absurd h hab
            · exact h
          have hba : b ≤ a := (List.pairwise_cons.mp (List.pairwise_cons.mp hp).2).1 a hal'
          have hab' : a ≤ b := (List.pairwise_cons.mp hp).1 b (List.mem_cons_self b l')
          exact hab (le_antisymm hab' hba)
        · have hc' : 2 ≤ (b :: l').count w := by
            rw [List.count_cons, if_neg (by simpa using haw)] at hc
            simpa using hc
          have := ih w (List.pairwise_cons.mp hp).2 hc'
          simp [this]

/-- Claim C6: dictionary loading panics exactly when, after filtering the
input lines to words of byte length `WORD_LENGTH` over `'a'..='z'` and
sorting, the resulting list has two equal adjacent entries; in particular any
source containing two identical entries that pass both filters (a fixed-length
lowercase word appearing twice) always panics. -/
theorem dict_load_panics_iff (lines : List String) :
    (dictLoadPanics lines = true ↔
      ∃ i a, (sortWords (filterWords lines))[i]? = some a ∧
        (sortWords (filterWords lines))[i + 1]? = some a) ∧
    (∀ w : String, hasWordLength w = true → isTypeable w = true →
      2 ≤ lines.count w → dictLoadPanics lines = true) := by
  constructor
  · exact hasAdjDup_iff (sortWords (filterWords lines))
  · intro w h1 h2 hc
    unfold dictLoadPanics
    apply sorted_count_two_adjDup _ w
    · have hpw := @List.sorted_mergeSort String (fun a b => decide (a ≤ b))
        (fun a b c hab hbc =>
          decide_eq_true (le_trans (of_decide_eq_true hab) (of_decide_eq_true hbc)))
        (fun a b => by simpa using le_total a b)
        (filterWords lines)
      exact hpw.imp fun h => of_decide_eq_true h
    · have hperm := List.mergeSort_perm (filterWords lines) fun a b => decide (a ≤ b)
      unfold sortWords
      rw [hperm.count_eq]
      unfold filterWords
      rw [List.count_filter h2, List.count_filter h1]
      exact hc

/-- Claim C6 witness: the two-line source "apple", "apple" panics. -/
theorem dict_load_panics_iff_witness :
    dictLoadPanics ["apple", "apple"] = true :=
  (dict_load_panics_iff ["apple", "apple"]).2 "apple" (by decide) (by decide) (by decide)

end Lingo
